import Mathlib

/-!
Verification development for the `t` task-tracking tool.

This file gives a shallow embedding of the repository's core data model:
tasks (`Task`), id-keyed task lists (`TaskList`, backed by an
insertion-order-preserving map from `u8` ids to tasks), and the multi-list
database (`Db`), together with the textual rendering and the JSON
serialization, and proves the specification's claims about them.

Modelling conventions:
- `IndexMap<K, V>` is modelled as an association list `List (K × V)` whose
  well-formed states have pairwise distinct keys (`Nodup` on the key list).
- `u8` ids are `Nat` with the invariant `< 256` carried in well-formedness
  predicates; the id probe in `add_task` runs on `u8` fuel (256 candidates),
  returning `none` where the Rust loop would never find a vacant slot.
- `IndexMap::remove` in the indexmap crate is `swap_remove`: the removed
  entry is swapped with the last entry and popped, which perturbs order;
  `swapRemoveKey` models exactly that.
- fallible operations return their `Result` paired with the post-state, so
  that "failure does not mutate" is expressible.
-/

deriving instance DecidableEq for Except

namespace T

/-! ## Association-list primitives (model of the `IndexMap` operations used) -/

/-- Model of `IndexMap::get`: value of the first (for well-formed maps, the
only) entry whose key is `a`. -/
def lookupKey {α β : Type} [DecidableEq α] (a : α) : List (α × β) → Option β
  | [] => none
  | p :: l => if p.1 = a then some p.2 else lookupKey a l

/-- Model of `IndexMap::insert`: overwrite the value in place when the key is
present, otherwise append the pair at the end of the insertion order. -/
def indexInsert {α β : Type} [DecidableEq α] (l : List (α × β)) (k : α) (v : β) :
    List (α × β) :=
  if (lookupKey k l).isSome then
    l.map (fun p => if p.1 = k then (k, v) else p)
  else
    l ++ [(k, v)]

/-- Index of the first entry with key `a`, model of `find` inside
`IndexMap::swap_remove`. -/
def findKeyIdx {α β : Type} [DecidableEq α] (a : α) : List (α × β) → Option Nat
  | [] => none
  | p :: l => if p.1 = a then some 0 else (findKeyIdx a l).map (· + 1)

/-- Model of `IndexMap::remove` (an alias of `swap_remove` in the indexmap
crate): the entry with key `a`, if present, is swapped with the last entry and
the last entry is popped. Returns `none` when the key is absent. -/
def swapRemoveKey {α β : Type} [DecidableEq α] (a : α) (l : List (α × β)) :
    Option (List (α × β)) :=
  match findKeyIdx a l with
  | none => none
  | some i =>
    match l.getLast? with
    | none => none
    | some last => some ((l.set i last).dropLast)

/-- Model of `IndexMap::get_mut` followed by an in-place update of the found
value: every entry keyed `a` (for well-formed maps, the only one) has its
value mapped through `f`. -/
def updateKey {α β : Type} [DecidableEq α] (a : α) (f : β → β)
    (l : List (α × β)) : List (α × β) :=
  l.map (fun p => if p.1 = a then (p.1, f p.2) else p)

/-! ## Data model: `Status`, `Task` (src/crates/t/src/status.rs, task.rs) -/

/-- Completion status of a task (`status.rs`). -/
inductive Status : Type
  | Incomplete : Status
  | Complete : Status
deriving DecidableEq

/-- Model of `chrono::NaiveDate` as used by the `reminders` field: a calendar
date, serialized in ISO `%Y-%m-%d` form. -/
structure NaiveDate : Type where
  year : Int
  month : Nat
  day : Nat
deriving DecidableEq

/-- A task (`task.rs`): a title, a completion status and reminder dates. -/
structure Task : Type where
  title : String
  status : Status
  reminders : List NaiveDate
deriving DecidableEq

/-- Model of `Task::new`: incomplete, no reminders. -/
def Task.new (title : String) : Task :=
  { title := title, status := Status.Incomplete, reminders := [] }

/-- Model of `Task::complete`: set the status to `Complete`. -/
def Task.complete (t : Task) : Task :=
  { t with status := Status.Complete }

/-- Model of `Task::rename`: unconditional title replacement. -/
def Task.rename (t : Task) (new_title : String) : Task :=
  { t with title := new_title }

/-- Model of `Task::is_complete`: `matches!(self.status, Status::Complete)`. -/
def Task.is_complete (t : Task) : Bool :=
  match t.status with
  | Status.Complete => true
  | Status.Incomplete => false

/-! ## `TaskList` and its operations (src/crates/t/src/task_list.rs) -/

/-- The error enum of `task_list.rs`. -/
inductive TaskListError : Type
  | NonExistentTaskId : Nat → TaskListError
deriving DecidableEq

/-- A task list (`task_list.rs`): an insertion-order-preserving map from `u8`
ids to tasks. -/
structure TaskList : Type where
  tasks : List (Nat × Task)
deriving DecidableEq

/-- The `IndexMap` invariant together with the `u8` key bound: all ids are
distinct and below 256. -/
def TaskList.WF (tl : TaskList) : Prop :=
  (tl.tasks.map Prod.fst).Nodup ∧ ∀ p ∈ tl.tasks, p.1 < 256

instance (tl : TaskList) : Decidable tl.WF := by
  unfold TaskList.WF
  infer_instance

/-- Model of `TaskList::is_empty`. -/
def TaskList.is_empty (tl : TaskList) : Bool :=
  tl.tasks.isEmpty

/-- The id probe of `TaskList::add_task`: starting from candidate `cand`, walk
upwards until a vacant id is found and append the new entry there (the vacant
`Entry::insert` of `IndexMap` appends at the end of the insertion order).
The fuel counts the remaining `u8` candidates: the Rust loop increments a `u8`
and can never see more than 256 distinct candidates, so exhausted fuel
(`none`) models the loop failing to terminate at a vacant slot. -/
def addTaskGo (tasks : List (Nat × Task)) (task : Task) :
    Nat → Nat → Option (List (Nat × Task))
  | _, 0 => none
  | cand, fuel + 1 =>
    match lookupKey cand tasks with
    | some _ => addTaskGo tasks task (cand + 1) fuel
    | none => some (tasks ++ [(cand, task)])

/-- Model of `TaskList::add_task`: probe ids from 0 upwards and insert at the
first vacant one. -/
def TaskList.add_task (tl : TaskList) (task : Task) : Option TaskList :=
  (addTaskGo tl.tasks task 0 256).map TaskList.mk

/-- Model of `TaskList::remove_task`: `self.tasks.remove(&id).ok_or_else(...)`;
the underlying `remove` is `swap_remove`. The `Result` is paired with the
post-state. -/
def TaskList.remove_task (tl : TaskList) (id : Nat) :
    Except TaskListError Unit × TaskList :=
  match swapRemoveKey id tl.tasks with
  | some tasks => (Except.ok (), ⟨tasks⟩)
  | none => (Except.error (TaskListError.NonExistentTaskId id), tl)

/-- Model of `TaskList::rename_task`: rename through `get_mut`, or fail. -/
def TaskList.rename_task (tl : TaskList) (id : Nat) (new_title : String) :
    Except TaskListError Unit × TaskList :=
  match lookupKey id tl.tasks with
  | some _ => (Except.ok (), ⟨updateKey id (fun t => t.rename new_title) tl.tasks⟩)
  | none => (Except.error (TaskListError.NonExistentTaskId id), tl)

/-- Model of `TaskList::complete_task`: complete through `get_mut`, or fail. -/
def TaskList.complete_task (tl : TaskList) (id : Nat) :
    Except TaskListError Unit × TaskList :=
  match lookupKey id tl.tasks with
  | some _ => (Except.ok (), ⟨updateKey id Task.complete tl.tasks⟩)
  | none => (Except.error (TaskListError.NonExistentTaskId id), tl)

/-- Model of `TaskList::remove_completed_tasks`:
`self.tasks.retain(|_, task| !task.is_complete())`; `retain` keeps the
surviving entries in order. -/
def TaskList.remove_completed_tasks (tl : TaskList) : TaskList :=
  ⟨tl.tasks.filter (fun p => !p.2.is_complete)⟩

/-! ## `Db` and its operations (src/src/db.rs) -/

/-- The error enum of `db.rs`. -/
inductive DbError : Type
  | NonExistentTaskList : String → DbError
deriving DecidableEq

/-- The database (`db.rs`): named task lists in insertion order plus the name
of the current list. -/
structure Db : Type where
  task_lists : List (String × TaskList)
  current_list : String
deriving DecidableEq

/-- Model of `Db::add_task_list`: `self.task_lists.insert(name, task_list)`. -/
def Db.add_task_list (db : Db) (name : String) (task_list : TaskList) : Db :=
  { db with task_lists := indexInsert db.task_lists name task_list }

/-- Model of `Db::set_current`: switch the current list when the name exists,
otherwise fail without mutating. The `Result` is paired with the post-state. -/
def Db.set_current (db : Db) (new_current_list : String) :
    Except DbError Unit × Db :=
  if (lookupKey new_current_list db.task_lists).isSome then
    (Except.ok (), { db with current_list := new_current_list })
  else
    (Except.error (DbError.NonExistentTaskList new_current_list), db)

/-- Model of `Db::get_current_task_list_mut` as a query: the task list bound
to the current selection, if any. -/
def Db.get_current_task_list_mut (db : Db) : Option TaskList :=
  lookupKey db.current_list db.task_lists

/-- Model of mutating through `Db::get_current_task_list_mut`: apply `f` to
the task list bound to the current selection, in place (a no-op when the
accessor returns `None`). -/
def Db.modifyCurrent (db : Db) (f : TaskList → TaskList) : Db :=
  { db with task_lists := updateKey db.current_list f db.task_lists }

/-- Model of `impl Default for Db`: one empty list named "Tasks", current. -/
def Db.defaultDb : Db :=
  { task_lists := [("Tasks", ⟨[]⟩)], current_list := "Tasks" }

/-! ## Decimal rendering of numbers (model of Rust integer formatting) -/

/-- The character for a single decimal digit (`_` is unreachable for
inputs below 10). -/
def digitChar : Nat → Char
  | 0 => '0' | 1 => '1' | 2 => '2' | 3 => '3' | 4 => '4'
  | 5 => '5' | 6 => '6' | 7 => '7' | 8 => '8' | _ => '9'

/-- Worker for `natToDigits`, structurally recursive on a fuel argument that
bounds the number of digits; any fuel above the input suffices. -/
def natToDigitsGo : Nat → Nat → List Char
  | _, 0 => []
  | n, fuel + 1 =>
    if n < 10 then [digitChar n]
    else natToDigitsGo (n / 10) fuel ++ [digitChar (n % 10)]

/-- Most-significant-first decimal digits of a natural number, the rendering
Rust's `Display` for unsigned integers produces. -/
def natToDigits (n : Nat) : List Char :=
  natToDigitsGo n (n + 1)

/-- Decimal rendering of a natural number as a string. -/
def natRepr (n : Nat) : String :=
  ⟨natToDigits n⟩

/-- Model of Rust's right-aligned width format `{:>w}`: pad with spaces on
the left up to width `w` (no truncation). -/
def padLeftSpaces (s : String) (w : Nat) : String :=
  ⟨List.replicate (w - s.length) ' '⟩ ++ s

/-- Concatenation of a list of strings interspersed with a separator, the
model of Rust's slice `join`. -/
def joinSep (sep : String) : List String → String
  | [] => ""
  | [s] => s
  | s :: rest => s ++ sep ++ joinSep sep rest

/-- Split a character list into segments each keeping its terminating
newline, the model of Rust's `split_inclusive('\n')`; the empty input yields
no segments. -/
def splitInclusiveNl : List Char → List (List Char)
  | [] => []
  | c :: rest =>
    if c = '\n' then [c] :: splitInclusiveNl rest
    else
      match splitInclusiveNl rest with
      | [] => [[c]]
      | l :: ls => (c :: l) :: ls

/-- Strip one trailing `"\r\n"` or `"\n"` from a line, as Rust's `lines()`
does to each inclusive segment. -/
def lineTrim (l : List Char) : List Char :=
  match l.reverse with
  | '\n' :: '\r' :: rest => rest.reverse
  | '\n' :: rest => rest.reverse
  | _ => l

/-- Model of Rust's `str::lines()`: the inclusive newline segments, each with
its line ending removed. -/
def rustLines (s : String) : List String :=
  (splitInclusiveNl s.data).map (fun l => String.mk (lineTrim l))

/-! ## Display (src/crates/t/src/status.rs, task.rs, task_list.rs and
src/src/db.rs) -/

/-- Model of `impl Display for Status`: a bullet for incomplete tasks, an
en dash for complete ones. -/
def Status.display : Status → String
  | Status.Incomplete => "•"
  | Status.Complete => "–"

/-- Model of `impl Display for Task`: `"{status} {title}"`. -/
def Task.display (t : Task) : String :=
  t.status.display ++ " " ++ t.title

/-- One line of the task-list rendering: `"[{id:>3}] {task}"`. -/
def renderTaskEntry (p : Nat × Task) : String :=
  "[" ++ padLeftSpaces (natRepr p.1) 3 ++ "] " ++ p.2.display

/-- Model of `impl Display for TaskList`: write each entry in insertion
order, following it with a newline unless it is the last entry
(`is_at_last_task`). -/
def TaskList.display (tl : TaskList) : String :=
  (tl.tasks.enum.map
    (fun q => renderTaskEntry q.2 ++
      if q.1 + 1 = tl.tasks.length then "" else "\n")).foldl (· ++ ·) ""

/-- The body `print_task_list` writes for one named list: the name line
(with the `" (current)"` marker when the name is the current selection),
then either the empty-list placeholder or the list's display with every line
indented by two spaces (split on lines, indent, join with newline). -/
def renderDbEntry (current_list : String) (p : String × TaskList) : String :=
  (if p.1 = current_list then p.1 ++ " (current)" else p.1) ++ "\n" ++
  (if p.2.is_empty then "  No tasks have been added to this task list yet"
   else joinSep "\n" ((rustLines p.2.display).map (fun line => "  " ++ line)))

/-- Model of `impl Display for Db`: all but the last list are printed each
followed by `writeln!(f, "\n")` (two newlines), then the last list is printed
bare. The iterator bound is `task_lists.len() - 1`, a `usize` subtraction
that panics in a debug build when the map is empty: that case is `none`. -/
def Db.display (db : Db) : Option String :=
  match db.task_lists.length with
  | 0 => none
  | n + 1 =>
    some
      (((db.task_lists.take n).map
          (fun p => renderDbEntry db.current_list p ++ "\n\n")).foldl (· ++ ·) ""
        ++ match db.task_lists.getLast? with
           | some p => renderDbEntry db.current_list p
           | none => "")

/-! ## Serialization (the `Serialize`/`Deserialize` derives, via serde_json)

The serialized form is modelled as a JSON tree. Structs serialize as objects
with their field names; the ordered maps serialize as objects in insertion
order, `u8` map keys rendered as decimal strings; `Status` unit variants
serialize as their names; `NaiveDate` serializes as its ISO `%Y-%m-%d`
string (chrono's serde impl). Deserialization of a struct looks fields up by
name, and deserialization of a map folds `insert` over the entries. -/

/-- A JSON value (only the constructors this data model produces). -/
inductive Json : Type
  | str : String → Json
  | arr : List Json → Json
  | obj : List (String × Json) → Json

/-- Field lookup in a JSON object, the model of a serde struct visitor
finding a field by name. -/
def Json.getField (j : Json) (name : String) : Option Json :=
  match j with
  | Json.obj fields => lookupKey name fields
  | _ => none

/-- Numeric value of a decimal digit character. -/
def digitVal (c : Char) : Nat :=
  c.toNat - 48

/-- The number denoted by most-significant-first decimal digits. -/
def decodeDigits (cs : List Char) : Nat :=
  cs.foldl (fun a c => a * 10 + digitVal c) 0

/-- Parse a nonempty all-digit character list as a natural number. -/
def parseNatDigits (cs : List Char) : Option Nat :=
  if cs ≠ [] ∧ cs.all Char.isDigit then some (decodeDigits cs) else none

/-- Parse a `u8` map key: a decimal string whose value fits in a byte. -/
def parseU8 (cs : List Char) : Option Nat :=
  match parseNatDigits cs with
  | some n => if n ≤ 255 then some n else none
  | none => none

/-- Left-pad a digit list with zeros up to width `w`, the model of chrono's
zero-padded numeric format specifiers. -/
def padZeroDigits (ds : List Char) (w : Nat) : List Char :=
  List.replicate (w - ds.length) '0' ++ ds

/-- The ISO `%Y-%m-%d` rendering of a date: sign for negative years, the
year zero-padded to four digits, month and day zero-padded to two. -/
def NaiveDate.renderChars (d : NaiveDate) : List Char :=
  (if d.year < 0 then ['-'] else []) ++ padZeroDigits (natToDigits d.year.natAbs) 4
    ++ ['-'] ++ padZeroDigits (natToDigits d.month) 2
    ++ ['-'] ++ padZeroDigits (natToDigits d.day) 2

/-- Longest digit prefix of a character list, and the rest. -/
def spanDigits : List Char → List Char × List Char
  | [] => ([], [])
  | c :: cs =>
    if c.isDigit then
      let p := spanDigits cs
      (c :: p.1, p.2)
    else ([], c :: cs)

/-- Parse the unsigned part of an ISO date: three dash-separated nonempty
decimal fields, the year negated when `neg` is set. -/
def parseDateBody (neg : Bool) (cs : List Char) : Option NaiveDate :=
  match spanDigits cs with
  | (ys, '-' :: rest) =>
    if ys = [] then none
    else
      match spanDigits rest with
      | (ms, '-' :: rest2) =>
        if ms = [] then none
        else
          match spanDigits rest2 with
          | (ds, []) =>
            if ds = [] then none
            else
              some
                { year := if neg then -(decodeDigits ys : Int) else decodeDigits ys,
                  month := decodeDigits ms, day := decodeDigits ds }
          | _ => none
      | _ => none
  | _ => none

/-- Parse an ISO `%Y-%m-%d` date: an optional leading sign, then three
dash-separated decimal fields. -/
def parseDateChars (cs : List Char) : Option NaiveDate :=
  if cs.head? = some '-' then parseDateBody true cs.tail
  else parseDateBody false cs

/-- Serialize a `NaiveDate` as its ISO string. -/
def NaiveDate.serialize (d : NaiveDate) : Json :=
  Json.str ⟨d.renderChars⟩

/-- Deserialize a `NaiveDate` from its ISO string. -/
def NaiveDate.deserialize (j : Json) : Option NaiveDate :=
  match j with
  | Json.str s => parseDateChars s.data
  | _ => none

/-- Serialize a `Status`: serde renders a unit variant as its name. -/
def Status.serialize : Status → Json
  | Status.Incomplete => Json.str "Incomplete"
  | Status.Complete => Json.str "Complete"

/-- Deserialize a `Status` from a variant-name string. -/
def Status.deserialize (j : Json) : Option Status :=
  match j with
  | Json.str "Incomplete" => some Status.Incomplete
  | Json.str "Complete" => some Status.Complete
  | _ => none

/-- Monadic map over a list in `Option`, the model of a serde sequence
visitor collecting elements and failing when any element fails. -/
def optionMapM {α β : Type} (f : α → Option β) : List α → Option (List β)
  | [] => some []
  | a :: l =>
    match f a with
    | some b =>
      match optionMapM f l with
      | some bs => some (b :: bs)
      | none => none
    | none => none

/-- Serialize a `Task` as an object with its three field names. -/
def Task.serialize (t : Task) : Json :=
  Json.obj
    [("title", Json.str t.title),
     ("status", t.status.serialize),
     ("reminders", Json.arr (t.reminders.map NaiveDate.serialize))]

/-- Deserialize a `Task` by looking each field up by name. -/
def Task.deserialize (j : Json) : Option Task :=
  match j.getField "title" with
  | some (Json.str title) =>
    match (j.getField "status").bind Status.deserialize with
    | some status =>
      match j.getField "reminders" with
      | some (Json.arr rs) =>
        match optionMapM NaiveDate.deserialize rs with
        | some reminders => some { title := title, status := status, reminders := reminders }
        | none => none
      | _ => none
    | none => none
  | _ => none

/-- Serialize a `TaskList`: the `tasks` map becomes an object in insertion
order, each `u8` id rendered as a decimal string. -/
def TaskList.serialize (tl : TaskList) : Json :=
  Json.obj [("tasks", Json.obj (tl.tasks.map (fun p => (natRepr p.1, p.2.serialize))))]

/-- Deserialize a `TaskList`: parse each key as a `u8` and each value as a
`Task`, folding `insert` over the entries as the serde `IndexMap` visitor
does. -/
def TaskList.deserialize (j : Json) : Option TaskList :=
  match j.getField "tasks" with
  | some (Json.obj entries) =>
    match
      optionMapM
        (fun p =>
          match parseU8 p.1.data with
          | some id =>
            match Task.deserialize p.2 with
            | some t => some (id, t)
            | none => none
          | none => none)
        entries
    with
    | some pairs => some ⟨pairs.foldl (fun acc q => indexInsert acc q.1 q.2) []⟩
    | none => none
  | _ => none

/-- Serialize a `Db` as an object with its two field names, the `task_lists`
map as an object in insertion order. -/
def Db.serialize (db : Db) : Json :=
  Json.obj
    [("task_lists", Json.obj (db.task_lists.map (fun p => (p.1, p.2.serialize)))),
     ("current_list", Json.str db.current_list)]

/-- Deserialize a `Db` by looking each field up by name, folding `insert`
over the task-list entries. -/
def Db.deserialize (j : Json) : Option Db :=
  match j.getField "task_lists" with
  | some (Json.obj entries) =>
    match
      optionMapM
        (fun p =>
          match TaskList.deserialize p.2 with
          | some tl => some (p.1, tl)
          | none => none)
        entries
    with
    | some pairs =>
      match j.getField "current_list" with
      | some (Json.str current) =>
        some { task_lists := pairs.foldl (fun acc q => indexInsert acc q.1 q.2) [],
               current_list := current }
      | _ => none
    | none => none
  | _ => none

/-- Well-formedness of a whole database: distinct list names and well-formed
task lists (the `IndexMap` invariants). -/
def Db.WF (db : Db) : Prop :=
  (db.task_lists.map Prod.fst).Nodup ∧ ∀ p ∈ db.task_lists, p.2.WF

instance (db : Db) : Decidable db.WF := by
  unfold Db.WF
  infer_instance

/-! ## Reachable database states

The CLI (`main.rs`) starts from `Db::default` when no saved state exists and
applies, per invocation, one of: a mutation of the current task list through
`get_current_task_list_mut`, `add_task_list`, or `set_current` (possibly
failing). `Reachable` closes the default state under those steps. -/

/-- The database states reachable from `Db::default` through the
operations the program performs. -/
inductive Db.Reachable : Db → Prop
  | base : Db.Reachable Db.defaultDb
  | add_task_list {db : Db} (name : String) (tl : TaskList) :
      Db.Reachable db → Db.Reachable (db.add_task_list name tl)
  | set_current {db : Db} (name : String) :
      Db.Reachable db → Db.Reachable (db.set_current name).2
  | modifyCurrent {db : Db} (f : TaskList → TaskList) :
      Db.Reachable db → Db.Reachable (db.modifyCurrent f)

/-! ## Sample values used by concrete witnesses -/

/-- The task list of the spec's display scenario: two incomplete tasks. -/
def sampleTaskList : TaskList :=
  ⟨[(0, Task.new "Buy some milk"), (1, Task.new "Learn Haskell")]⟩

/-- A two-list database whose current selection is the second list. -/
def sampleDb : Db :=
  { task_lists :=
      [("Tasks", sampleTaskList),
       ("Novel", ⟨[(0, Task.new "Write acknowledgements")]⟩)],
    current_list := "Novel" }

/-- A database exercising every serialized construct: both statuses, a
reminder with a negative year, the largest `u8` id, an empty list. -/
def sampleRoundTripDb : Db :=
  { task_lists :=
      [("Tasks",
        ⟨[(0, ⟨"Go to the dentist", Status.Complete, [⟨-44, 2, 29⟩, ⟨2024, 12, 3⟩]⟩),
          (255, Task.new "Write some tests")]⟩),
       ("Novel", ⟨[]⟩)],
    current_list := "Novel" }

/-! ## Lemmas about the association-list primitives -/

theorem lookupKey_cons {α β : Type} [DecidableEq α] (a : α) (p : α × β)
    (l : List (α × β)) :
    lookupKey a (p :: l) = if p.1 = a then some p.2 else lookupKey a l := rfl

theorem updateKey_cons {α β : Type} [DecidableEq α] (a : α) (f : β → β)
    (p : α × β) (l : List (α × β)) :
    updateKey a f (p :: l) =
      (if p.1 = a then (p.1, f p.2) else p) :: updateKey a f l := by
  unfold updateKey
  rw [List.map_cons]

theorem findKeyIdx_cons {α β : Type} [DecidableEq α] (a : α) (p : α × β)
    (l : List (α × β)) :
    findKeyIdx a (p :: l) =
      if p.1 = a then some 0 else (findKeyIdx a l).map (· + 1) := rfl

theorem lookupKey_isSome_iff {α β : Type} [DecidableEq α] (a : α)
    (l : List (α × β)) : (lookupKey a l).isSome ↔ a ∈ l.map Prod.fst := by
  induction l with
  | nil => simp [lookupKey]
  | cons p l ih =>
    rw [lookupKey_cons, List.map_cons, List.mem_cons]
    by_cases h : p.1 = a
    · simp [h]
    · rw [if_neg h, ih, or_iff_right (fun hh => h hh.symm)]

theorem lookupKey_eq_none_iff {α β : Type} [DecidableEq α] (a : α)
    (l : List (α × β)) : lookupKey a l = none ↔ a ∉ l.map Prod.fst := by
  rw [← Option.not_isSome_iff_eq_none, lookupKey_isSome_iff]

theorem lookupKey_updateKey_self {α β : Type} [DecidableEq α] (a : α)
    (f : β → β) (l : List (α × β)) :
    lookupKey a (updateKey a f l) = (lookupKey a l).map f := by
  induction l with
  | nil => simp [lookupKey, updateKey]
  | cons p l ih =>
    by_cases h : p.1 = a <;>
      simp [updateKey_cons, lookupKey_cons, h, ih]

theorem lookupKey_updateKey_other {α β : Type} [DecidableEq α] {a b : α}
    (hne : b ≠ a) (f : β → β) (l : List (α × β)) :
    lookupKey b (updateKey a f l) = lookupKey b l := by
  induction l with
  | nil => simp [lookupKey, updateKey]
  | cons p l ih =>
    by_cases h : p.1 = a
    · rw [updateKey_cons, if_pos h, lookupKey_cons, lookupKey_cons]
      have : ¬p.1 = b := fun hb => hne (by rw [← hb, h])
      simp [this, ih]
    · rw [updateKey_cons, if_neg h, lookupKey_cons, lookupKey_cons, ih]

theorem keys_updateKey {α β : Type} [DecidableEq α] (a : α) (f : β → β)
    (l : List (α × β)) :
    (updateKey a f l).map Prod.fst = l.map Prod.fst := by
  induction l with
  | nil => rfl
  | cons p l ih =>
    by_cases h : p.1 = a <;>
      simp [updateKey_cons, h, ih]

theorem updateKey_updateKey {α β : Type} [DecidableEq α] (a : α)
    (f g : β → β) (l : List (α × β)) :
    updateKey a g (updateKey a f l) = updateKey a (fun b => g (f b)) l := by
  induction l with
  | nil => rfl
  | cons p l ih =>
    by_cases h : p.1 = a <;>
      simp [updateKey_cons, h, ih]

theorem keys_indexInsert {α β : Type} [DecidableEq α] (l : List (α × β))
    (k : α) (v : β) :
    (indexInsert l k v).map Prod.fst =
      if (lookupKey k l).isSome then l.map Prod.fst else l.map Prod.fst ++ [k] := by
  by_cases h : (lookupKey k l).isSome
  · simp only [indexInsert, h, if_true, List.map_map]
    apply List.map_congr_left
    intro p _
    by_cases hp : p.1 = k <;> simp [hp]
  · simp [indexInsert, h]

theorem indexInsert_ne_nil {α β : Type} [DecidableEq α] (l : List (α × β))
    (k : α) (v : β) : indexInsert l k v ≠ [] := by
  unfold indexInsert
  by_cases h : (lookupKey k l).isSome <;> simp [h]
  intro hl
  rw [hl] at h
  simp [lookupKey] at h

theorem findKeyIdx_eq_none_iff {α β : Type} [DecidableEq α] (a : α)
    (l : List (α × β)) : findKeyIdx a l = none ↔ a ∉ l.map Prod.fst := by
  induction l with
  | nil => simp [findKeyIdx]
  | cons p l ih =>
    rw [findKeyIdx_cons, List.map_cons, List.mem_cons]
    by_cases h : p.1 = a
    · simp [h]
    · rw [if_neg h]
      simp only [Option.map_eq_none', ih]
      constructor
      · intro hm hor
        exact hor.elim (fun he => h he.symm) hm
      · intro hn
        exact fun hm => hn (Or.inr hm)

/-! ## Lemmas about the id probe of `add_task` -/

theorem addTaskGo_eq (tasks : List (Nat × Task)) (task : Task) :
    ∀ (fuel cand m : Nat), cand ≤ m → m < cand + fuel →
      lookupKey m tasks = none →
      (∀ j, cand ≤ j → j < m → (lookupKey j tasks).isSome) →
      addTaskGo tasks task cand fuel = some (tasks ++ [(m, task)]) := by
  intro fuel
  induction fuel with
  | zero =>
    intro cand m h1 h2 _ _
    omega
  | succ fuel ih =>
    intro cand m h1 h2 hm hocc
    by_cases hc : cand = m
    · subst hc
      simp [addTaskGo, hm]
    · have hlt : cand < m := lt_of_le_of_ne h1 hc
      have hsome : (lookupKey cand tasks).isSome := hocc cand le_rfl hlt
      obtain ⟨v, hv⟩ := Option.isSome_iff_exists.mp hsome
      rw [addTaskGo, hv]
      exact ih (cand + 1) m hlt (by omega) hm
        (fun j hj1 hj2 => hocc j (by omega) hj2)

theorem exists_free_id (tasks : List (Nat × Task))
    (hlen : tasks.length < 256) :
    ∃ m, m < 256 ∧ lookupKey m tasks = none := by
  by_contra hno
  push_neg at hno
  have hsub : List.range 256 ⊆ tasks.map Prod.fst := by
    intro x hx
    have hx256 : x < 256 := List.mem_range.mp hx
    have := hno x hx256
    rw [← lookupKey_isSome_iff x tasks]
    exact Option.ne_none_iff_isSome.mp this
  have hsp := List.subperm_of_subset (List.nodup_range 256) hsub
  have := hsp.length_le
  rw [List.length_range, List.length_map] at this
  omega

/-! ## Lemmas about string joining and the display loops -/

theorem joinSep_cons₂ (sep s t : String) (l : List String) :
    joinSep sep (s :: t :: l) = s ++ sep ++ joinSep sep (t :: l) := rfl

theorem foldl_append_shift (l : List String) (init : String) :
    l.foldl (· ++ ·) init = init ++ l.foldl (· ++ ·) "" := by
  induction l generalizing init with
  | nil => simp
  | cons a l ih =>
    rw [List.foldl_cons, List.foldl_cons, ih (init ++ a), ih ("" ++ a),
      String.empty_append, String.append_assoc]

theorem enumFrom_display_join {α : Type} (f : α → String) :
    ∀ (l : List α) (k n : Nat), k + l.length = n → l ≠ [] →
      ((List.enumFrom k l).map
        (fun q => f q.2 ++ if q.1 + 1 = n then "" else "\n")).foldl (· ++ ·) "" =
      joinSep "\n" (l.map f) := by
  intro l
  induction l with
  | nil => intro k n _ hne; exact absurd rfl hne
  | cons a l ih =>
    intro k n hlen _
    match l with
    | [] =>
      have : k + 1 = n := by simpa using hlen
      simp [List.enumFrom, this, joinSep]
    | b :: l' =>
      have hcond : ¬(k + 1 = n) := by
        simp only [List.length_cons] at hlen
        omega
      rw [List.enumFrom_cons, List.map_cons, List.foldl_cons, if_neg hcond,
        foldl_append_shift, String.empty_append,
        ih (k + 1) n (by simp only [List.length_cons] at hlen ⊢; omega) (by simp)]
      simp [joinSep_cons₂]

theorem dbDisplay_join (g : String × TaskList → String) :
    ∀ (l : List (String × TaskList)), l ≠ [] →
      ((l.take (l.length - 1)).map (fun p => g p ++ "\n\n")).foldl (· ++ ·) ""
        ++ (match l.getLast? with | some p => g p | none => "") =
      joinSep "\n\n" (l.map g) := by
  intro l
  induction l with
  | nil => intro hne; exact absurd rfl hne
  | cons a l ih =>
    intro _
    match l with
    | [] => simp [joinSep]
    | b :: l' =>
      have htake :
          (a :: b :: l').take ((a :: b :: l').length - 1) =
            a :: (b :: l').take ((b :: l').length - 1) := by
        simp
      rw [htake, List.map_cons, List.foldl_cons, String.empty_append,
        foldl_append_shift, List.getLast?_cons_cons,
        String.append_assoc, ih (by simp)]
      simp [joinSep_cons₂]

/-! ## Invariants of reachable database states -/

theorem reachable_current_mem {db : Db} (h : db.Reachable) :
    db.current_list ∈ db.task_lists.map Prod.fst := by
  induction h with
  | base => simp [Db.defaultDb]
  | @add_task_list d name tl _ ih =>
    rw [Db.add_task_list, keys_indexInsert]
    by_cases hk : (lookupKey name d.task_lists).isSome
    · simpa [hk] using ih
    · simp only [Bool.not_eq_true] at hk
      simp only [hk, Bool.false_eq_true, if_false, List.mem_append]
      exact Or.inl ih
  | @set_current d name _ ih =>
    by_cases hk : (lookupKey name d.task_lists).isSome
    · simp only [Db.set_current, hk, if_true]
      exact (lookupKey_isSome_iff name _).mp hk
    · simpa [Db.set_current, hk] using ih
  | modifyCurrent f _ ih =>
    rw [Db.modifyCurrent]
    simpa [keys_updateKey] using ih

theorem reachable_task_lists_ne_nil {db : Db} (h : db.Reachable) :
    db.task_lists ≠ [] := by
  induction h with
  | base => simp [Db.defaultDb]
  | add_task_list name tl _ _ =>
    exact indexInsert_ne_nil _ name tl
  | @set_current d name _ ih =>
    by_cases hk : (lookupKey name d.task_lists).isSome <;>
      simpa [Db.set_current, hk] using ih
  | modifyCurrent f _ ih =>
    simp only [Db.modifyCurrent, updateKey, ne_eq, List.map_eq_nil_iff]
    exact ih

/-! ## Decimal and date parsing inverts rendering -/

theorem digitChar_isDigit (n : Nat) : (digitChar n).isDigit = true := by
  unfold digitChar
  split <;> decide

theorem digitVal_digitChar {n : Nat} (h : n < 10) :
    digitVal (digitChar n) = n := by
  interval_cases n <;> decide

theorem natToDigitsGo_ne_nil :
    ∀ (fuel n : Nat), n < fuel → natToDigitsGo n fuel ≠ [] := by
  intro fuel
  induction fuel with
  | zero => intro n h; omega
  | succ fuel _ =>
    intro n _
    by_cases h10 : n < 10 <;> simp [natToDigitsGo, h10]

theorem natToDigitsGo_all_digits :
    ∀ (fuel n : Nat), (natToDigitsGo n fuel).all Char.isDigit = true := by
  intro fuel
  induction fuel with
  | zero => intro n; rfl
  | succ fuel ih =>
    intro n
    by_cases h10 : n < 10 <;>
      simp [natToDigitsGo, h10, digitChar_isDigit, List.all_append, ih]

theorem decodeDigits_append_singleton (ds : List Char) (c : Char) :
    decodeDigits (ds ++ [c]) = 10 * decodeDigits ds + digitVal c := by
  simp [decodeDigits, List.foldl_append]
  exact Nat.mul_comm _ 10

theorem decode_natToDigitsGo :
    ∀ (fuel n : Nat), n < fuel → decodeDigits (natToDigitsGo n fuel) = n := by
  intro fuel
  induction fuel with
  | zero => intro n h; omega
  | succ fuel ih =>
    intro n hn
    by_cases h10 : n < 10
    · simp [natToDigitsGo, h10, decodeDigits, digitVal_digitChar h10]
    · have hdiv : n / 10 < fuel :=
        lt_of_lt_of_le (Nat.div_lt_self (by omega) (by omega)) (by omega)
      rw [natToDigitsGo, if_neg h10, decodeDigits_append_singleton, ih _ hdiv,
        digitVal_digitChar (Nat.mod_lt n (by omega))]
      omega

theorem natToDigits_ne_nil (n : Nat) : natToDigits n ≠ [] :=
  natToDigitsGo_ne_nil (n + 1) n (by omega)

theorem natToDigits_all_digits (n : Nat) :
    (natToDigits n).all Char.isDigit = true :=
  natToDigitsGo_all_digits (n + 1) n

theorem decode_natToDigits (n : Nat) : decodeDigits (natToDigits n) = n :=
  decode_natToDigitsGo (n + 1) n (by omega)

theorem parseNatDigits_natToDigits (n : Nat) :
    parseNatDigits (natToDigits n) = some n := by
  rw [parseNatDigits, if_pos ⟨natToDigits_ne_nil n, natToDigits_all_digits n⟩,
    decode_natToDigits]

theorem parseU8_natToDigits {n : Nat} (h : n < 256) :
    parseU8 (natToDigits n) = some n := by
  rw [parseU8, parseNatDigits_natToDigits]
  simp only [ge_iff_le]
  rw [if_pos (by omega)]

theorem padZeroDigits_all_digits {ds : List Char}
    (h : ds.all Char.isDigit = true) (w : Nat) :
    (padZeroDigits ds w).all Char.isDigit = true := by
  simp [padZeroDigits, List.all_append, h, List.all_eq_true]

theorem padZeroDigits_ne_nil {ds : List Char} (h : ds ≠ []) (w : Nat) :
    padZeroDigits ds w ≠ [] := by
  simp [padZeroDigits, h]

theorem decode_replicate_zero (k : Nat) (ds : List Char) :
    decodeDigits (List.replicate k '0' ++ ds) = decodeDigits ds := by
  induction k with
  | zero => rfl
  | succ k ih =>
    rw [List.replicate_succ, List.cons_append]
    exact ih

theorem decode_padZeroDigits (ds : List Char) (w : Nat) :
    decodeDigits (padZeroDigits ds w) = decodeDigits ds :=
  decode_replicate_zero _ ds

theorem spanDigits_all {ds : List Char} (h : ds.all Char.isDigit = true) :
    spanDigits ds = (ds, []) := by
  induction ds with
  | nil => rfl
  | cons c ds ih =>
    rw [List.all_cons, Bool.and_eq_true] at h
    rw [spanDigits, if_pos h.1, ih h.2]

theorem spanDigits_append_nondigit {ds : List Char} {c : Char}
    (h : ds.all Char.isDigit = true) (hc : c.isDigit = false)
    (rest : List Char) :
    spanDigits (ds ++ c :: rest) = (ds, c :: rest) := by
  induction ds with
  | nil =>
    rw [List.nil_append, spanDigits, if_neg (by rw [hc]; exact Bool.false_ne_true)]
  | cons d ds ih =>
    rw [List.all_cons, Bool.and_eq_true] at h
    rw [List.cons_append, spanDigits, if_pos h.1, ih h.2]

theorem parseDateBody_eq (neg : Bool) {Y M D : List Char}
    (hY : Y.all Char.isDigit = true) (hYne : Y ≠ [])
    (hM : M.all Char.isDigit = true) (hMne : M ≠ [])
    (hD : D.all Char.isDigit = true) (hDne : D ≠ []) :
    parseDateBody neg (Y ++ '-' :: (M ++ '-' :: D)) =
      some
        { year := if neg then -(decodeDigits Y : Int) else decodeDigits Y,
          month := decodeDigits M, day := decodeDigits D } := by
  rw [parseDateBody, spanDigits_append_nondigit hY (by decide) (M ++ '-' :: D)]
  simp only [if_neg hYne]
  rw [spanDigits_append_nondigit hM (by decide) D]
  simp only [if_neg hMne]
  rw [spanDigits_all hD]
  simp only [if_neg hDne]

theorem parseDateChars_renderChars (d : NaiveDate) :
    parseDateChars d.renderChars = some d := by
  have hY := padZeroDigits_all_digits (natToDigits_all_digits d.year.natAbs) 4
  have hYne := padZeroDigits_ne_nil (natToDigits_ne_nil d.year.natAbs) 4
  have hM := padZeroDigits_all_digits (natToDigits_all_digits d.month) 2
  have hMne := padZeroDigits_ne_nil (natToDigits_ne_nil d.month) 2
  have hD := padZeroDigits_all_digits (natToDigits_all_digits d.day) 2
  have hDne := padZeroDigits_ne_nil (natToDigits_ne_nil d.day) 2
  have hyearn : decodeDigits (padZeroDigits (natToDigits d.year.natAbs) 4) =
      d.year.natAbs := by
    rw [decode_padZeroDigits, decode_natToDigits]
  have hmonth : decodeDigits (padZeroDigits (natToDigits d.month) 2) = d.month := by
    rw [decode_padZeroDigits, decode_natToDigits]
  have hday : decodeDigits (padZeroDigits (natToDigits d.day) 2) = d.day := by
    rw [decode_padZeroDigits, decode_natToDigits]
  by_cases hneg : d.year < 0
  · have hrn : d.renderChars =
        '-' :: (padZeroDigits (natToDigits d.year.natAbs) 4
          ++ '-' :: (padZeroDigits (natToDigits d.month) 2
            ++ '-' :: padZeroDigits (natToDigits d.day) 2)) := by
      rw [NaiveDate.renderChars, if_pos hneg]
      simp
    rw [parseDateChars, hrn]
    simp only [List.head?_cons, if_pos rfl, List.tail_cons]
    rw [parseDateBody_eq true hY hYne hM hMne hD hDne]
    simp only [if_pos rfl, hyearn, hmonth, hday, if_true]
    have : -(d.year.natAbs : Int) = d.year := by omega
    rw [this]
  · have hrn : d.renderChars =
        padZeroDigits (natToDigits d.year.natAbs) 4
          ++ '-' :: (padZeroDigits (natToDigits d.month) 2
            ++ '-' :: padZeroDigits (natToDigits d.day) 2) := by
      rw [NaiveDate.renderChars, if_neg hneg]
      simp
    have hhead : d.renderChars.head? ≠ some '-' := by
      rw [hrn]
      obtain ⟨c, Y', hYc⟩ := List.exists_cons_of_ne_nil hYne
      rw [hYc, List.cons_append, List.head?_cons]
      intro hc
      have hcd : c.isDigit = true := by
        rw [hYc, List.all_cons, Bool.and_eq_true] at hY
        exact hY.1
      rw [Option.some_inj.mp hc] at hcd
      exact absurd hcd (by decide)
    rw [parseDateChars, if_neg hhead, hrn,
      parseDateBody_eq false hY hYne hM hMne hD hDne]
    simp only [Bool.false_eq_true, if_false, hyearn, hmonth, hday]
    have : (d.year.natAbs : Int) = d.year := by omega
    rw [this]

/-! ## Serialization round-trips -/

theorem status_deser_of_ser (s : Status) :
    Status.deserialize s.serialize = some s := by
  cases s <;> rfl

theorem date_deser_of_ser (d : NaiveDate) :
    NaiveDate.deserialize d.serialize = some d := by
  rw [NaiveDate.serialize, NaiveDate.deserialize]
  exact parseDateChars_renderChars d

theorem optionMapM_map {α β : Type} (f : β → Option α) (g : α → β)
    (l : List α) (h : ∀ x ∈ l, f (g x) = some x) :
    optionMapM f (l.map g) = some l := by
  induction l with
  | nil => rfl
  | cons a l ih =>
    rw [List.map_cons, optionMapM, h a (List.mem_cons_self a l),
      ih (fun x hx => h x (List.mem_cons_of_mem a hx))]

theorem task_deser_of_ser (t : Task) :
    Task.deserialize t.serialize = some t := by
  rw [Task.serialize, Task.deserialize]
  have h1 : (Json.obj
      [("title", Json.str t.title), ("status", t.status.serialize),
       ("reminders", Json.arr (t.reminders.map NaiveDate.serialize))]).getField
      "title" = some (Json.str t.title) := rfl
  have h2 : (Json.obj
      [("title", Json.str t.title), ("status", t.status.serialize),
       ("reminders", Json.arr (t.reminders.map NaiveDate.serialize))]).getField
      "status" = some t.status.serialize := rfl
  have h3 : (Json.obj
      [("title", Json.str t.title), ("status", t.status.serialize),
       ("reminders", Json.arr (t.reminders.map NaiveDate.serialize))]).getField
      "reminders" = some (Json.arr (t.reminders.map NaiveDate.serialize)) := rfl
  have hmapm : optionMapM NaiveDate.deserialize (t.reminders.map NaiveDate.serialize) =
      some t.reminders :=
    optionMapM_map NaiveDate.deserialize NaiveDate.serialize t.reminders
      (fun x _ => date_deser_of_ser x)
  rw [h1, h2, h3, Option.some_bind, status_deser_of_ser]
  simp only [hmapm]

theorem foldl_indexInsert {α β : Type} [DecidableEq α] :
    ∀ (l acc : List (α × β)),
      (∀ p ∈ l, p.1 ∉ acc.map Prod.fst) → (l.map Prod.fst).Nodup →
      l.foldl (fun a q => indexInsert a q.1 q.2) acc = acc ++ l := by
  intro l
  induction l with
  | nil => intro acc _ _; simp
  | cons q l ih =>
    intro acc hdisj hnd
    have hq : (lookupKey q.1 acc).isSome = false := by
      rw [← Bool.not_eq_true, lookupKey_isSome_iff]
      exact hdisj q (List.mem_cons_self q l)
    rw [List.foldl_cons]
    have hins : indexInsert acc q.1 q.2 = acc ++ [q] := by
      rw [indexInsert, hq]
      simp
    rw [hins, ih (acc ++ [q])
      (by
        intro p hp
        rw [List.map_append, List.mem_append]
        rintro (hmem | hmem)
        · exact hdisj p (List.mem_cons_of_mem q hp) hmem
        · rw [List.map_cons, List.nodup_cons] at hnd
          simp only [List.map_cons, List.map_nil, List.mem_singleton] at hmem
          exact hnd.1 (hmem ▸ List.mem_map_of_mem Prod.fst hp))
      (by rw [List.map_cons, List.nodup_cons] at hnd; exact hnd.2)]
    simp

theorem tasklist_deser_of_ser {tl : TaskList} (h : tl.WF) :
    TaskList.deserialize tl.serialize = some tl := by
  rw [TaskList.serialize, TaskList.deserialize]
  have hfield : (Json.obj
      [("tasks", Json.obj (tl.tasks.map (fun p => (natRepr p.1, p.2.serialize))))]).getField
      "tasks" = some (Json.obj (tl.tasks.map (fun p => (natRepr p.1, p.2.serialize)))) := rfl
  rw [hfield]
  have hmapm :
      optionMapM
        (fun p : String × Json =>
          match parseU8 p.1.data with
          | some id =>
            match Task.deserialize p.2 with
            | some t => some (id, t)
            | none => none
          | none => none)
        (tl.tasks.map (fun p => (natRepr p.1, p.2.serialize))) = some tl.tasks := by
    apply optionMapM_map
    intro p hp
    have hkey : (natRepr p.1).data = natToDigits p.1 := rfl
    rw [hkey, parseU8_natToDigits (h.2 p hp), task_deser_of_ser]
  have hfold := foldl_indexInsert tl.tasks [] (by simp) h.1
  rw [List.nil_append] at hfold
  simp only [hmapm, hfold]

theorem db_deser_of_ser {db : Db} (h : db.WF) :
    Db.deserialize db.serialize = some db := by
  rw [Db.serialize, Db.deserialize]
  have hfield : (Json.obj
      [("task_lists", Json.obj (db.task_lists.map (fun p => (p.1, p.2.serialize)))),
       ("current_list", Json.str db.current_list)]).getField "task_lists" =
      some (Json.obj (db.task_lists.map (fun p => (p.1, p.2.serialize)))) := rfl
  rw [hfield]
  have hmapm :
      optionMapM
        (fun p : String × Json =>
          match TaskList.deserialize p.2 with
          | some tl => some (p.1, tl)
          | none => none)
        (db.task_lists.map (fun p => (p.1, p.2.serialize))) = some db.task_lists := by
    apply optionMapM_map
    intro p hp
    rw [tasklist_deser_of_ser (h.2 p hp)]
  have hcur : (Json.obj
      [("task_lists", Json.obj (db.task_lists.map (fun p => (p.1, p.2.serialize)))),
       ("current_list", Json.str db.current_list)]).getField "current_list" =
      some (Json.str db.current_list) := rfl
  have hfold := foldl_indexInsert db.task_lists [] (by simp) h.1
  rw [List.nil_append] at hfold
  simp only [hmapm, hcur, hfold]

/-! ## Display characterizations (shared helpers) -/

theorem task_list_display_eq (tl : TaskList) :
    tl.display = joinSep "\n" (tl.tasks.map renderTaskEntry) := by
  obtain ⟨tasks⟩ := tl
  rw [TaskList.display]
  match tasks with
  | [] => rfl
  | a :: l =>
    exact enumFrom_display_join renderTaskEntry (a :: l) 0 (a :: l).length
      (by omega) (by simp)

theorem db_display_eq (db : Db) (h : db.task_lists ≠ []) :
    db.display =
      some (joinSep "\n\n" (db.task_lists.map (renderDbEntry db.current_list))) := by
  obtain ⟨ls, cur⟩ := db
  match ls with
  | [] => exact absurd rfl h
  | a :: l =>
    have hjoin := dbDisplay_join (renderDbEntry cur) (a :: l) (by simp)
    simp only [List.length_cons, Nat.add_sub_cancel] at hjoin
    rw [Db.display]
    simp only [List.length_cons]
    rw [← hjoin]

/-! ## The spec's claims -/

/-- C1: for every `TaskList` holding fewer than 256 tasks, `add_task(task)`
allocates the smallest id not currently in use (a linear probe starting at 0)
and inserts `(id, task)` at the end of the insertion order. -/
theorem add_task_allocates_smallest (tl : TaskList) (task : Task)
    (hlen : tl.tasks.length < 256) :
    ∃ m, m ∉ tl.tasks.map Prod.fst ∧ (∀ j < m, j ∈ tl.tasks.map Prod.fst) ∧
      tl.add_task task = some ⟨tl.tasks ++ [(m, task)]⟩ := by
  obtain ⟨m₀, hm₀lt, hm₀⟩ := exists_free_id tl.tasks hlen
  have hex : ∃ m, lookupKey m tl.tasks = none := ⟨m₀, hm₀⟩
  have hmnone : lookupKey (Nat.find hex) tl.tasks = none := Nat.find_spec hex
  have hmlt : Nat.find hex < 256 := lt_of_le_of_lt (Nat.find_min' hex hm₀) hm₀lt
  have hocc : ∀ j, 0 ≤ j → j < Nat.find hex → (lookupKey j tl.tasks).isSome :=
    fun j _ hj =>
      Option.ne_none_iff_isSome.mp (Nat.find_min hex hj)
  refine ⟨Nat.find hex, (lookupKey_eq_none_iff _ _).mp hmnone, ?_, ?_⟩
  · intro j hj
    exact (lookupKey_isSome_iff j _).mp (hocc j (Nat.zero_le j) hj)
  · rw [TaskList.add_task,
      addTaskGo_eq tl.tasks task 256 0 (Nat.find hex) (Nat.zero_le _) (by omega)
        hmnone hocc, Option.map_some']

/-- Witness for C1: the spec's scenario — after ids 0, 1, 2 are allocated and
id 0 is removed (`swap_remove` leaves entries with ids 2 and 1), the next
`add_task` assigns id 0 again rather than 3, appending at the end. -/
theorem add_task_allocates_smallest_witness :
    (TaskList.mk [(2, Task.new "Finish Chapter 10 of my novel"),
        (1, Task.new "Learn Haskell")]).tasks.length < 256 ∧
    (∃ m, m ∉ (TaskList.mk [(2, Task.new "Finish Chapter 10 of my novel"),
          (1, Task.new "Learn Haskell")]).tasks.map Prod.fst ∧
      (∀ j < m, j ∈ (TaskList.mk [(2, Task.new "Finish Chapter 10 of my novel"),
          (1, Task.new "Learn Haskell")]).tasks.map Prod.fst) ∧
      (TaskList.mk [(2, Task.new "Finish Chapter 10 of my novel"),
          (1, Task.new "Learn Haskell")]).add_task (Task.new "Buy some milk") =
        some ⟨(TaskList.mk [(2, Task.new "Finish Chapter 10 of my novel"),
            (1, Task.new "Learn Haskell")]).tasks ++ [(m, Task.new "Buy some milk")]⟩) ∧
    (TaskList.mk [(2, Task.new "Finish Chapter 10 of my novel"),
        (1, Task.new "Learn Haskell")]).add_task (Task.new "Buy some milk") =
      some ⟨[(2, Task.new "Finish Chapter 10 of my novel"),
        (1, Task.new "Learn Haskell"), (0, Task.new "Buy some milk")]⟩ :=
  ⟨by decide,
   add_task_allocates_smallest _ (Task.new "Buy some milk") (by decide),
   by decide⟩

/-- C2: `remove_task`, `rename_task` and `complete_task` on an absent id each
return `NonExistentTaskId(id)` and leave the task list unchanged; on a
present id each succeeds with `Ok(())`. -/
theorem ops_existence_spec (tl : TaskList) (id : Nat) (new_title : String) :
    (id ∉ tl.tasks.map Prod.fst →
      tl.remove_task id = (Except.error (TaskListError.NonExistentTaskId id), tl) ∧
      tl.rename_task id new_title =
        (Except.error (TaskListError.NonExistentTaskId id), tl) ∧
      tl.complete_task id =
        (Except.error (TaskListError.NonExistentTaskId id), tl)) ∧
    (id ∈ tl.tasks.map Prod.fst →
      (tl.remove_task id).1 = Except.ok () ∧
      (tl.rename_task id new_title).1 = Except.ok () ∧
      (tl.complete_task id).1 = Except.ok ()) := by
  constructor
  · intro h
    have hnone : lookupKey id tl.tasks = none := (lookupKey_eq_none_iff id _).mpr h
    have hfind : findKeyIdx id tl.tasks = none := (findKeyIdx_eq_none_iff id _).mpr h
    refine ⟨?_, ?_, ?_⟩
    · rw [TaskList.remove_task, swapRemoveKey, hfind]
    · rw [TaskList.rename_task, hnone]
    · rw [TaskList.complete_task, hnone]
  · intro h
    have hsome : (lookupKey id tl.tasks).isSome := (lookupKey_isSome_iff id _).mpr h
    obtain ⟨v, hv⟩ := Option.isSome_iff_exists.mp hsome
    have hfind : findKeyIdx id tl.tasks ≠ none :=
      fun hn => ((findKeyIdx_eq_none_iff id _).mp hn) h
    obtain ⟨i, hi⟩ := Option.ne_none_iff_exists'.mp hfind
    have hne : tl.tasks ≠ [] := by
      intro h0
      rw [h0] at h
      simp at h
    have hlast : tl.tasks.getLast? ≠ none := by
      intro h0
      exact hne (List.getLast?_eq_none_iff.mp h0)
    obtain ⟨last, hl⟩ := Option.ne_none_iff_exists'.mp hlast
    refine ⟨?_, ?_, ?_⟩
    · rw [TaskList.remove_task, swapRemoveKey, hi, hl]
    · rw [TaskList.rename_task, hv]
    · rw [TaskList.complete_task, hv]

/-- Witness for C2: id 5 is absent from the sample list (all three
operations fail without mutating), id 0 is present (`complete_task`
succeeds). -/
theorem ops_existence_spec_witness :
    sampleTaskList.remove_task 5 =
      (Except.error (TaskListError.NonExistentTaskId 5), sampleTaskList) ∧
    (sampleTaskList.complete_task 0).1 = Except.ok () :=
  ⟨((ops_existence_spec sampleTaskList 5 "Vacuum").1 (by decide)).1,
   ((ops_existence_spec sampleTaskList 0 "Vacuum").2 (by decide)).2.2⟩

/-- C3: `set_current(name)` succeeds and makes `name` current exactly when
`name` is a key of `task_lists`; otherwise it fails with
`NonExistentTaskList(name)` and leaves the whole database unchanged. -/
theorem set_current_spec (db : Db) (name : String) :
    (name ∈ db.task_lists.map Prod.fst →
      db.set_current name = (Except.ok (), { db with current_list := name })) ∧
    (name ∉ db.task_lists.map Prod.fst →
      db.set_current name = (Except.error (DbError.NonExistentTaskList name), db)) := by
  constructor
  · intro h
    rw [Db.set_current, if_pos ((lookupKey_isSome_iff name _).mpr h)]
  · intro h
    rw [Db.set_current, if_neg (fun hs => h ((lookupKey_isSome_iff name _).mp hs))]

/-- Witness for C3: "Tasks" exists in the sample database and becomes
current; "Chores" does not exist and the database is left unchanged. -/
theorem set_current_spec_witness :
    sampleDb.set_current "Tasks" =
      (Except.ok (), { sampleDb with current_list := "Tasks" }) ∧
    sampleDb.set_current "Chores" =
      (Except.error (DbError.NonExistentTaskList "Chores"), sampleDb) :=
  ⟨(set_current_spec sampleDb "Tasks").1 (by decide),
   (set_current_spec sampleDb "Chores").2 (by decide)⟩

/-- C4: on every database reachable from the default construction, the
current selection names an existing list, so `get_current_task_list_mut`
never returns `None`. -/
theorem current_selection_valid (db : Db) (h : db.Reachable) :
    db.current_list ∈ db.task_lists.map Prod.fst ∧
      db.get_current_task_list_mut.isSome :=
  ⟨reachable_current_mem h,
   (lookupKey_isSome_iff db.current_list db.task_lists).mpr (reachable_current_mem h)⟩

/-- Witness for C4 at the default database, which is reachable by
construction. -/
theorem current_selection_valid_witness :
    Db.defaultDb.current_list ∈ Db.defaultDb.task_lists.map Prod.fst ∧
      Db.defaultDb.get_current_task_list_mut.isSome :=
  current_selection_valid Db.defaultDb Db.Reachable.base

/-- C5: `remove_completed_tasks` never fails and keeps exactly the
incomplete tasks with their ids in their original relative order; the
closing conjunct is the spec's `[0 incomplete, 1 complete, 2 complete]`
scenario. -/
theorem remove_completed_tasks_spec (tl : TaskList) :
    (tl.remove_completed_tasks.tasks.Sublist tl.tasks ∧
     (∀ p ∈ tl.remove_completed_tasks.tasks, p.2.is_complete = false) ∧
     (∀ p ∈ tl.tasks, p.2.is_complete = false →
        p ∈ tl.remove_completed_tasks.tasks)) ∧
    TaskList.remove_completed_tasks
        ⟨[(0, Task.new "Go to the dentist"),
          (1, ⟨"Write some tests", Status.Complete, []⟩),
          (2, ⟨"Refactor code", Status.Complete, []⟩)]⟩ =
      ⟨[(0, Task.new "Go to the dentist")]⟩ := by
  refine ⟨⟨List.filter_sublist _, ?_, ?_⟩, by decide⟩
  · intro p hp
    have := List.of_mem_filter hp
    simpa using this
  · intro p hp hic
    exact List.mem_filter_of_mem hp (by simp [hic])

/-- Witness for C5: the incomplete task of the sample list survives the
filtered removal. -/
theorem remove_completed_tasks_spec_witness :
    (0, Task.new "Buy some milk") ∈ sampleTaskList.tasks ∧
    (0, Task.new "Buy some milk") ∈ sampleTaskList.remove_completed_tasks.tasks :=
  ⟨by decide,
   (remove_completed_tasks_spec sampleTaskList).1.2.2 (0, Task.new "Buy some milk")
     (by decide) (by decide)⟩

/-- C6: completing a task is idempotent — a second `complete_task` on the
same id returns the same result and the same state, and on a `Task`,
`complete` changes nothing when the task is already complete. -/
theorem complete_task_idempotent (tl : TaskList) (id : Nat)
    (h : id ∈ tl.tasks.map Prod.fst) :
    ((tl.complete_task id).2).complete_task id = tl.complete_task id ∧
    (∀ t : Task, t.is_complete = true → t.complete = t) := by
  constructor
  · have hsome := (lookupKey_isSome_iff id tl.tasks).mpr h
    obtain ⟨v, hv⟩ := Option.isSome_iff_exists.mp hsome
    have h1 : tl.complete_task id =
        (Except.ok (), ⟨updateKey id Task.complete tl.tasks⟩) := by
      rw [TaskList.complete_task, hv]
    rw [h1]
    have h2 : lookupKey id (updateKey id Task.complete tl.tasks) =
        some (Task.complete v) := by
      rw [lookupKey_updateKey_self, hv, Option.map_some']
    rw [TaskList.complete_task]
    simp only [h2, updateKey_updateKey]
    have hcc : (fun b : Task => Task.complete (Task.complete b)) = Task.complete :=
      funext fun b => rfl
    rw [hcc]
  · intro t ht
    obtain ⟨title, status, reminders⟩ := t
    cases status
    · exact absurd ht (by simp [Task.is_complete])
    · rfl

/-- Witness for C6: id 0 is present in the sample list; completing it twice
equals completing it once, and `complete` fixes an already-complete task. -/
theorem complete_task_idempotent_witness :
    ((sampleTaskList.complete_task 0).2).complete_task 0 =
      sampleTaskList.complete_task 0 ∧
    Task.complete ⟨"Vacuum", Status.Complete, []⟩ = ⟨"Vacuum", Status.Complete, []⟩ :=
  ⟨(complete_task_idempotent sampleTaskList 0 (by decide)).1,
   (complete_task_idempotent sampleTaskList 0 (by decide)).2
     ⟨"Vacuum", Status.Complete, []⟩ (by decide)⟩

/-- C7: deserializing the serialized form of any well-formed database
reproduces an equal value, including insertion order of both maps and the
current selection. -/
theorem serialization_roundtrip (db : Db) (h : db.WF) :
    Db.deserialize db.serialize = some db :=
  db_deser_of_ser h

/-- Witness for C7 at a database exercising both statuses, reminder dates
(one with a negative year), the largest `u8` id and an empty list. -/
theorem serialization_roundtrip_witness :
    sampleRoundTripDb.WF ∧
      Db.deserialize sampleRoundTripDb.serialize = some sampleRoundTripDb :=
  ⟨by decide, serialization_roundtrip sampleRoundTripDb (by decide)⟩

/-- C8: a task list renders one entry per line in insertion order, each as
`"[{id:>3}] {glyph} {title}"`, joined by newline with no trailing newline;
the closing conjunct is the spec's two-task example. -/
theorem task_list_display_spec :
    (∀ tl : TaskList, tl.display = joinSep "\n" (tl.tasks.map renderTaskEntry)) ∧
    sampleTaskList.display = "[  0] • Buy some milk\n[  1] • Learn Haskell" := by
  refine ⟨task_list_display_eq, ?_⟩
  decide

/-- C9: a database with at least one list renders each list in insertion
order — name line with the `" (current)"` marker exactly on the current
selection, then the indented list body or the empty placeholder — entries
separated by one blank line, with no trailing blank line. -/
theorem db_display_spec (db : Db) (h : db.task_lists ≠ []) :
    db.display =
      some (joinSep "\n\n" (db.task_lists.map (renderDbEntry db.current_list))) :=
  db_display_eq db h

/-- Witness for C9: the sample database renders with the current marker on
"Novel", two-space indentation and one blank separator line, and the default
database renders the empty-list placeholder. -/
theorem db_display_spec_witness :
    sampleDb.task_lists ≠ [] ∧
    sampleDb.display =
      some (joinSep "\n\n" (sampleDb.task_lists.map (renderDbEntry sampleDb.current_list))) ∧
    sampleDb.display =
      some ("Tasks\n  [  0] • Buy some milk\n  [  1] • Learn Haskell\n\n" ++
        "Novel (current)\n  [  0] • Write acknowledgements") ∧
    Db.defaultDb.display =
      some "Tasks (current)\n  No tasks have been added to this task list yet" :=
  ⟨by decide, db_display_spec sampleDb (by decide), by decide, by decide⟩

/-- C10: the `task_lists.len() - 1` subtraction in the database rendering
can only underflow on an empty map, and every database reachable from the
default construction has at least one list, so rendering is total there. -/
theorem db_display_total_on_reachable (db : Db) (h : db.Reachable) :
    db.task_lists ≠ [] ∧ db.display.isSome := by
  refine ⟨reachable_task_lists_ne_nil h, ?_⟩
  rw [db_display_eq db (reachable_task_lists_ne_nil h)]
  rfl

/-- Witness for C10 at the default database, which is reachable by
construction. -/
theorem db_display_total_on_reachable_witness :
    Db.defaultDb.task_lists ≠ [] ∧ Db.defaultDb.display.isSome :=
  db_display_total_on_reachable Db.defaultDb Db.Reachable.base

end T
